import Mathlib

/-!
Verification of the text-normalization / tokenization / verse-extraction /
matching pipeline of the acts-vocab-game repository.

Strings are modelled as `List Char`.  JavaScript regex character classes
(`\s`, `\d`, `\p{L}`, `\p{M}`) are modelled by executable predicates on
`Char`, restricted to the Unicode blocks this code base can meet (ASCII,
Latin-1, Greek and Coptic, Greek Extended, the standard combining-mark
blocks).  `String.prototype.normalize` ("NFC"/"NFD") is modelled by explicit
canonical decomposition / composition tables for the precomposed Greek
letters that occur in the corpus.

The browser DOM consumed by `extractVersesFromHtml` is modelled by the tree
type `DomNode` (element and text nodes); the `DOMParser` call is represented
by taking the already-parsed `body` tree as input.  The source's `nextNode`
walker realizes the document-order (pre-order, depth-first) successor, so
walking from a node is traversing the suffix of the pre-order listing of the
whole tree that starts right after that node.
-/

/-- Model of the JavaScript `\s` class: ASCII whitespace, NBSP, and the
Unicode space/line separators (the set used by `replace(/\s+/g, " ")` and
`String.prototype.trim`). -/
def isSpaceJS (c : Char) : Bool :=
  let n := c.toNat
  decide (n = 0x20) || decide (n = 0x9) || decide (n = 0xa) || decide (n = 0xb) ||
  decide (n = 0xc) || decide (n = 0xd) || decide (n = 0xa0) || decide (n = 0x1680) ||
  (decide (0x2000 ≤ n) && decide (n ≤ 0x200a)) || decide (n = 0x2028) ||
  decide (n = 0x2029) || decide (n = 0x202f) || decide (n = 0x205f) ||
  decide (n = 0x3000) || decide (n = 0xfeff)

/-- `s.replace(/ /g, " ")` — first step of `cleanText` in
`src/app/page.tsx`. -/
def replaceNbsp (s : List Char) : List Char :=
  s.map fun c => if c.toNat = 0xa0 then ' ' else c

/-- `.replace(/\s+/g, " ")` — collapse every maximal whitespace run to one
space (second step of `cleanText`). -/
def collapseWs : List Char → List Char
  | [] => []
  | [c] => if isSpaceJS c then [' '] else [c]
  | c :: d :: rest =>
    if isSpaceJS c then
      if isSpaceJS d then collapseWs (d :: rest) else ' ' :: collapseWs (d :: rest)
    else c :: collapseWs (d :: rest)

/-- JavaScript `String.prototype.trim`. -/
def trimWs (s : List Char) : List Char :=
  ((s.dropWhile isSpaceJS).reverse.dropWhile isSpaceJS).reverse

/-- `cleanText` from `src/app/page.tsx`:
`s.replace(/ /g, " ").replace(/\s+/g, " ").trim()`. -/
def cleanText (s : List Char) : List Char :=
  trimWs (collapseWs (replaceNbsp s))

/-- Model of the JavaScript `\p{M}` class (Unicode general category Mark)
on the combining-mark blocks relevant to this code base. -/
def isMark (c : Char) : Bool :=
  let n := c.toNat
  (decide (0x300 ≤ n) && decide (n ≤ 0x36f)) ||
  (decide (0x1ab0 ≤ n) && decide (n ≤ 0x1aff)) ||
  (decide (0x1dc0 ≤ n) && decide (n ≤ 0x1dff)) ||
  (decide (0x20d0 ≤ n) && decide (n ≤ 0x20ff)) ||
  (decide (0xfe20 ≤ n) && decide (n ≤ 0xfe2f))

/-- Canonical (full, NFD) decompositions of the precomposed Greek letters
used by the corpus: each key decomposes into its base letter followed by its
combining marks in canonical order. -/
def decompTable : List (Char × List Char) :=
  [ ('ά', ['α', '́']), ('έ', ['ε', '́']),
    ('ή', ['η', '́']), ('ί', ['ι', '́']),
    ('ό', ['ο', '́']), ('ύ', ['υ', '́']),
    ('ώ', ['ω', '́']), ('Ά', ['Α', '́']),
    ('Έ', ['Ε', '́']), ('Ή', ['Η', '́']),
    ('Ί', ['Ι', '́']), ('Ό', ['Ο', '́']),
    ('Ύ', ['Υ', '́']), ('Ώ', ['Ω', '́']),
    ('ϊ', ['ι', '̈']), ('ϋ', ['υ', '̈']),
    ('ΐ', ['ι', '̈', '́']),
    ('ΰ', ['υ', '̈', '́']),
    ('ἀ', ['α', '̓']), ('ἐ', ['ε', '̓']),
    ('ἰ', ['ι', '̓']), ('ἱ', ['ι', '̔']),
    ('ἶ', ['ι', '̓', '͂']),
    ('ῆ', ['η', '͂']) ]

/-- Canonical composition pairs (base or partially composed character,
combining mark) → precomposed character, matching `decompTable`. -/
def compTable : List ((Char × Char) × Char) :=
  [ (('α', '́'), 'ά'), (('ε', '́'), 'έ'),
    (('η', '́'), 'ή'), (('ι', '́'), 'ί'),
    (('ο', '́'), 'ό'), (('υ', '́'), 'ύ'),
    (('ω', '́'), 'ώ'), (('Α', '́'), 'Ά'),
    (('Ε', '́'), 'Έ'), (('Η', '́'), 'Ή'),
    (('Ι', '́'), 'Ί'), (('Ο', '́'), 'Ό'),
    (('Υ', '́'), 'Ύ'), (('Ω', '́'), 'Ώ'),
    (('ι', '̈'), 'ϊ'), (('υ', '̈'), 'ϋ'),
    (('ϊ', '́'), 'ΐ'), (('ϋ', '́'), 'ΰ'),
    (('α', '̓'), 'ἀ'), (('ε', '̓'), 'ἐ'),
    (('ι', '̓'), 'ἰ'), (('ι', '̔'), 'ἱ'),
    (('ἰ', '͂'), 'ἶ'), (('η', '͂'), 'ῆ') ]

/-- Full canonical decomposition of one character (identity off the table). -/
def decompose (c : Char) : List Char :=
  match decompTable.find? (fun p => p.1 == c) with
  | some p => p.2
  | none => [c]

/-- Unicode canonical decomposition (the model of `normalize("NFD")`). -/
def nfd (s : List Char) : List Char :=
  s.flatMap decompose

/-- Canonical composition of an adjacent (starter, mark) pair. -/
def compLookup (b c : Char) : Option Char :=
  (compTable.find? fun p => p.1.1 == b && p.1.2 == c).map (·.2)

/-- Composition scan: repeatedly compose the pending character with the next
one when the table allows it. -/
def compGo (b : Char) : List Char → List Char
  | [] => [b]
  | c :: rest =>
    match compLookup b c with
    | some b' => compGo b' rest
    | none => b :: compGo c rest

/-- Compose adjacent canonical pairs after full decomposition. -/
def composePairs : List Char → List Char
  | [] => []
  | c :: rest => compGo c rest

/-- `normalizeNFC` from `src/app/page.tsx`: `s.normalize("NFC")`, modelled
as full decomposition followed by canonical composition. -/
def normalizeNFC (s : List Char) : List Char :=
  composePairs (nfd s)

/-- `stripDiacritics` from `src/app/page.tsx`:
`s.normalize("NFD").replace(/\p{M}+/gu, "").normalize("NFC")` (removing
every maximal run of marks is removing every mark). -/
def stripDiacritics (s : List Char) : List Char :=
  composePairs (nfd ((nfd s).filter fun c => !isMark c))

/-- `normalizeForCompare` from `src/app/page.tsx`: NFC-canonicalize, then
strip diacritics iff `ignoreAccents`.  (Note: the source neither lowercases
nor trims here.) -/
def normalizeForCompare (s : List Char) (ignoreAccents : Bool) : List Char :=
  let n := normalizeNFC s
  if ignoreAccents then stripDiacritics n else n

/-- Model of the JavaScript `\p{L}` class (Unicode general category Letter)
on the blocks this code base can meet: Basic Latin, Latin-1, Greek and
Coptic, Greek Extended. -/
def letterRanges : List (Nat × Nat) :=
  [ (0x41, 0x5a), (0x61, 0x7a), (0xaa, 0xaa), (0xb5, 0xb5), (0xba, 0xba),
    (0xc0, 0xd6), (0xd8, 0xf6), (0xf8, 0xff),
    (0x370, 0x373), (0x376, 0x377), (0x37a, 0x37d), (0x37f, 0x37f),
    (0x386, 0x386), (0x388, 0x38a), (0x38c, 0x38c), (0x38e, 0x3a1),
    (0x3a3, 0x3f5), (0x3f7, 0x3ff),
    (0x1f00, 0x1f15), (0x1f18, 0x1f1d), (0x1f20, 0x1f45), (0x1f48, 0x1f4d),
    (0x1f50, 0x1f57), (0x1f59, 0x1f59), (0x1f5b, 0x1f5b), (0x1f5d, 0x1f5d),
    (0x1f5f, 0x1f7d), (0x1f80, 0x1fb4), (0x1fb6, 0x1fbc), (0x1fbe, 0x1fbe),
    (0x1fc2, 0x1fc4), (0x1fc6, 0x1fcc), (0x1fd0, 0x1fd3), (0x1fd6, 0x1fdb),
    (0x1fe0, 0x1fec), (0x1ff2, 0x1ff4), (0x1ff6, 0x1ffc) ]

def isLetterU (c : Char) : Bool :=
  letterRanges.any fun r => decide (r.1 ≤ c.toNat) && decide (c.toNat ≤ r.2)

/-- The character class `[\p{L}\p{M}]` of the tokenizer regex. -/
def isWordChar (c : Char) : Bool :=
  isLetterU c || isMark c

inductive TokenKind where
  | word
  | sep
deriving DecidableEq

structure Token where
  kind : TokenKind
  value : List Char
deriving DecidableEq

/-- `tokenizePreserve` from `src/app/page.tsx`: the `exec` loop of
`/([\p{L}\p{M}]+)|([^\p{L}\p{M}]+)/gu` emits, left to right, maximal runs of
word characters as `word` tokens and maximal runs of the remaining
characters as `sep` tokens. -/
def tokenizePreserve : List Char → List Token
  | [] => []
  | c :: rest =>
    ⟨if isWordChar c then .word else .sep,
        c :: rest.takeWhile fun x => isWordChar x == isWordChar c⟩ ::
      tokenizePreserve (rest.dropWhile fun x => isWordChar x == isWordChar c)
termination_by l => l.length
decreasing_by
  simp only [List.length_cons]
  exact Nat.lt_succ_of_le (List.dropWhile_sublist _).length_le

/-- JavaScript `missionText.split("\n")`. -/
def splitNlGo (acc : List Char) : List Char → List (List Char)
  | [] => [acc.reverse]
  | c :: rest =>
    if c = '\n' then acc.reverse :: splitNlGo [] rest
    else splitNlGo (c :: acc) rest

def splitNl (s : List Char) : List (List Char) :=
  splitNlGo [] s

/-- The `missionSet` memo from `src/app/page.tsx`: split the mission text
into lines, trim and normalize each line, keep the non-empty keys.  The
JavaScript `Set` is modelled by the key list (membership is what the code
consumes). -/
def missionSet (missionText : List Char) (ignoreAccents : Bool) : List (List Char) :=
  ((splitNl missionText).map fun s => normalizeForCompare (trimWs s) ignoreAccents).filter
    fun s => !(s == [])

/-- `prev[w] || 0` on the `foundCounts` record (a JavaScript object mapping
comparison keys to counts, modelled as an association list). -/
def recGet (m : List (List Char × Nat)) (k : List Char) : Nat :=
  match m.find? (fun p => p.1 == k) with
  | some p => p.2
  | none => 0

/-- `{ ...prev, [w]: n }`: replace the binding of `w` if present, otherwise
add it. -/
def recSet : List (List Char × Nat) → List Char → Nat → List (List Char × Nat)
  | [], k, v => [(k, v)]
  | p :: rest, k, v => if p.1 == k then (k, v) :: rest else p :: recSet rest k v

/-- `onWordClick` from `src/app/page.tsx`, restricted to its effect on the
match result and the `foundCounts` ledger (the click-flash timer is UI
state): normalize the clicked word, test membership in the mission set, and
on a match bump exactly that key's count. -/
def onWordClick (word : List Char) (missionKeys : List (List Char))
    (ignoreAccents : Bool) (prev : List (List Char × Nat)) :
    Bool × List (List Char × Nat) :=
  let w := normalizeForCompare word ignoreAccents
  let ok := missionKeys.contains w
  (ok, if ok then recSet prev w (recGet prev w + 1) else prev)

/-- A parsed markup tree: element nodes (`nodeType === 1`, with a lowercase
tag name) and text nodes (`nodeType === 3`). -/
inductive DomNode where
  | element (tag : List Char) (children : List DomNode)
  | text (s : List Char)

/-- `{ v, t }` verse records from `src/app/page.tsx`. -/
structure Verse where
  v : Nat
  t : List Char
deriving DecidableEq

mutual

/-- Document-order (pre-order) listing of a tree: the successor sequence
computed by the source's `nextNode` from a node is exactly the suffix of
this listing after that node's occurrence. -/
def preorder : DomNode → List DomNode
  | .text s => [.text s]
  | .element tag cs => .element tag cs :: preorderList cs

def preorderList : List DomNode → List DomNode
  | [] => []
  | n :: rest => preorder n ++ preorderList rest

end

mutual

/-- `node.textContent`: concatenation of all descendant text. -/
def textContent : DomNode → List Char
  | .text s => s
  | .element _ cs => textContentList cs

def textContentList : List DomNode → List Char
  | [] => []
  | n :: rest => textContent n ++ textContentList rest

end

/-- The `/^\d{1,3}$/` test on a cleaned string. -/
def isDigits1to3 (s : List Char) : Bool :=
  !s.isEmpty && decide (s.length ≤ 3) && s.all Char.isDigit

/-- `isVerseSup` from `extractVersesFromHtml`: a `sup` element whose cleaned
text content is a 1-to-3-digit number. -/
def isVerseSup : DomNode → Bool
  | .element tag cs => tag == "sup".toList && isDigits1to3 (cleanText (textContentList cs))
  | .text _ => false

def isElement : DomNode → Bool
  | .element _ _ => true
  | .text _ => false

/-- `parseInt` on a digit string. -/
def parseDec (s : List Char) : Nat :=
  s.foldl (fun n c => 10 * n + (c.toNat - 48)) 0

/-- The text pushed for one visited node inside the `collectTextUntilNextSup`
walk: a text node contributes its cleaned `nodeValue`; an element with no
element children (`el.children.length === 0`) contributes its cleaned
`textContent`; container elements contribute nothing; empty cleaned texts
are skipped. -/
def leafTextOf : DomNode → Option (List Char)
  | .text s =>
    let tx := cleanText s
    if tx = [] then none else some tx
  | .element _ cs =>
    if (cs.filter isElement).isEmpty then
      let tx := cleanText (textContentList cs)
      if tx = [] then none else some tx
    else none

/-- `texts.join(" ")`. -/
def joinSp : List (List Char) → List Char
  | [] => []
  | [x] => x
  | x :: y :: rest => x ++ ' ' :: joinSp (y :: rest)

/-- `collectTextUntilNextSup` from `extractVersesFromHtml`, expressed on the
document-order suffix that starts right after the marker: visit nodes until
the next verse marker (or the end), gather each node's contribution, join
with spaces and clean. -/
def collectTextUntilNextSup (suffix : List DomNode) : List Char :=
  cleanText (joinSp ((suffix.takeWhile fun n => !isVerseSup n).filterMap leafTextOf))

/-- The primary strategy's loop over `sups` (all verse markers in document
order), expressed on the document-order listing: for each verse marker,
parse its number and collect the following text; keep it when the text is
non-empty. -/
def primaryVerses : List DomNode → List Verse
  | [] => []
  | n :: rest =>
    if isVerseSup n then
      if collectTextUntilNextSup rest = [] then primaryVerses rest
      else ⟨parseDec (cleanText (textContent n)), collectTextUntilNextSup rest⟩ ::
        primaryVerses rest
    else primaryVerses rest

/-- The lookahead `(?=\d{1,3}\s)` of the fallback split regex. -/
def lookaheadVerse : List Char → Bool
  | a :: b :: c :: d :: _ =>
    (a.isDigit && isSpaceJS b) || (a.isDigit && b.isDigit && isSpaceJS c) ||
    (a.isDigit && b.isDigit && c.isDigit && isSpaceJS d)
  | [a, b, c] => (a.isDigit && isSpaceJS b) || (a.isDigit && b.isDigit && isSpaceJS c)
  | [a, b] => a.isDigit && isSpaceJS b
  | _ => false

/-- `raw.split(/\s(?=\d{1,3}\s)/g)`: cut (consuming the whitespace) at every
whitespace character followed by a 1-to-3-digit number and whitespace. -/
def splitVerseGo (acc : List Char) : List Char → List (List Char)
  | [] => [acc.reverse]
  | c :: rest =>
    if isSpaceJS c && lookaheadVerse rest then acc.reverse :: splitVerseGo [] rest
    else splitVerseGo (c :: acc) rest

def splitVerse (s : List Char) : List (List Char) :=
  splitVerseGo [] s

/-- JavaScript line terminators (not matched by `.`). -/
def hasLineTerm (s : List Char) : Bool :=
  s.any fun c =>
    decide (c.toNat = 0xa) || decide (c.toNat = 0xd) ||
    decide (c.toNat = 0x2028) || decide (c.toNat = 0x2029)

/-- `p.match(/^(\d{1,3})\s+(.*)$/)` on one fallback segment, returning the
verse built from it: the leading digit run (of length 1..3, else no match)
is the number, then at least one whitespace, and `(.*)` takes the rest,
which therefore may not contain a line terminator.  The verse text is
`cleanText(m[2])`. -/
def parsePiece (p : List Char) : Option Verse :=
  match p.dropWhile Char.isDigit with
  | [] => none
  | c :: rest' =>
    if !(p.takeWhile Char.isDigit).isEmpty &&
        decide ((p.takeWhile Char.isDigit).length ≤ 3) && isSpaceJS c &&
        !hasLineTerm ((c :: rest').dropWhile isSpaceJS) then
      some ⟨parseDec (p.takeWhile Char.isDigit),
        cleanText ((c :: rest').dropWhile isSpaceJS)⟩
    else none

/-- The fallback strategy of `extractVersesFromHtml`: clean the body's full
text, split on in-text verse-number boundaries, and parse each segment. -/
def fallbackVerses (body : DomNode) : List Verse :=
  (splitVerse (cleanText (textContent body))).filterMap parsePiece

/-- The dedup loop of `extractVersesFromHtml`: drop verses whose
`(number, first-40-characters-of-text)` key was already seen. -/
def dedupGo (seen : List (Nat × List Char)) : List Verse → List Verse
  | [] => []
  | x :: rest =>
    if seen.contains (x.v, x.t.take 40) then dedupGo seen rest
    else x :: dedupGo ((x.v, x.t.take 40) :: seen) rest

def dedupVerses (vs : List Verse) : List Verse :=
  dedupGo [] vs

/-- `out.sort((a, b) => a.v - b.v)`: a stable ascending sort by verse
number, modelled by insertion sort (which is stable, like the JavaScript
engine's sort). -/
def sortVerses (vs : List Verse) : List Verse :=
  vs.insertionSort fun a b => a.v ≤ b.v

/-- `extractVersesFromHtml` takes the fallback path exactly when the primary
strategy produced no verses. -/
def usesFallback (body : DomNode) : Bool :=
  (primaryVerses (preorder body)).isEmpty

/-- `extractVersesFromHtml` from `src/app/page.tsx`, on the parsed body
tree: primary strategy over the verse markers, fallback plain-text split
when it produced nothing, then dedup and ascending sort. -/
def extractVersesFromHtml (body : DomNode) : List Verse :=
  let verses :=
    if usesFallback body then fallbackVerses body else primaryVerses (preorder body)
  sortVerses (dedupVerses verses)

/-- The upstream `fetch` result consumed by the proxy route: `res.ok`,
`res.status`, and the `res.text()` body. -/
structure UpstreamResp where
  ok : Bool
  status : Nat
  body : List Char
deriving DecidableEq

/-- A response produced by the proxy route (status and body). -/
structure ApiResp where
  status : Nat
  body : List Char
deriving DecidableEq

/-- The proxy `GET` handler from `src/unnamed/part_002` (`/api/na28`),
as a function of the `chapter` query parameter and of the upstream server
(modelled as a function from chapter number to response).  The second
component records which chapter was fetched upstream (`none` = the handler
answered before any upstream request).  JavaScript details modelled:
`!chapter` is true for a missing or empty parameter, `/^\d+$/` is a
non-empty all-digit test, and `Number` of such a string is its decimal
value.  The 502 error payload's interpolated upstream status is not
modelled (the claims are about status codes and the 200 body). -/
def GET (chapter : Option (List Char)) (upstream : Nat → UpstreamResp) :
    ApiResp × Option Nat :=
  match chapter with
  | none => (⟨400, "Missing or invalid ?chapter=".toList⟩, none)
  | some s =>
    if s.isEmpty || !(s.all Char.isDigit) then
      (⟨400, "Missing or invalid ?chapter=".toList⟩, none)
    else
      let ch := parseDec s
      if decide (ch < 1) || decide (ch > 28) then
        (⟨400, "Chapter must be 1..28".toList⟩, none)
      else
        let r := upstream ch
        if !r.ok then (⟨502, "Upstream HTTP error".toList⟩, some ch)
        else (⟨200, r.body⟩, some ch)

/-- No two adjacent whitespace characters. -/
def NoDbl (l : List Char) : Prop :=
  l.Chain' fun a b => ¬(isSpaceJS a = true ∧ isSpaceJS b = true)

/-- Every whitespace character is a plain space. -/
def OnlyPlainWs (l : List Char) : Prop :=
  ∀ c ∈ l, isSpaceJS c = true → c = ' '

def HeadNonWs (l : List Char) : Prop :=
  ∀ c, l.head? = some c → isSpaceJS c = false

def LastNonWs (l : List Char) : Prop :=
  ∀ c, l.getLast? = some c → isSpaceJS c = false

/-- The normal form produced by `cleanText`: single plain spaces only,
no leading or trailing whitespace. -/
def IsCleanStr (l : List Char) : Prop :=
  NoDbl l ∧ OnlyPlainWs l ∧ HeadNonWs l ∧ LastNonWs l

/-- The part of the document-order listing contributed by a node's
descendants (everything strictly below it). -/
def descFlat : DomNode → List DomNode
  | .text _ => []
  | .element _ cs => preorderList cs

/-- A list splits well at every position: whatever occurs is immediately
followed by its descendants.  Pre-order listings have this shape. -/
def SplitsOk (l : List DomNode) : Prop :=
  ∀ l₁ n l₂, l = l₁ ++ n :: l₂ → ∃ l₃, l₂ = descFlat n ++ l₃

instance : DecidableRel fun a b : Verse => a.v ≤ b.v :=
  fun a b => Nat.decLe a.v b.v

instance : IsTotal Verse fun a b : Verse => a.v ≤ b.v :=
  ⟨fun a b => Nat.le_total a.v b.v⟩

instance : IsTrans Verse fun a b : Verse => a.v ≤ b.v :=
  ⟨fun _ _ _ h1 h2 => Nat.le_trans h1 h2⟩

/-! ## Lemmas about `cleanText` -/

theorem head_collapseWs (rest : List Char) (c : Char) :
    ∃ r, collapseWs (c :: rest) = (if isSpaceJS c then ' ' else c) :: r := by
  induction rest generalizing c with
  | nil =>
    by_cases h : isSpaceJS c <;> simp [collapseWs, h]
  | cons d t ih =>
    by_cases h : isSpaceJS c
    · by_cases hd : isSpaceJS d
      · obtain ⟨r, hr⟩ := ih d
        rw [if_pos hd] at hr
        exact ⟨r, by simp [collapseWs, h, hd, hr]⟩
      · exact ⟨collapseWs (d :: t), by simp [collapseWs, h, hd]⟩
    · exact ⟨collapseWs (d :: t), by simp [collapseWs, h]⟩

theorem noDbl_collapseWs (l : List Char) : NoDbl (collapseWs l) := by
  induction l with
  | nil => simp [collapseWs, NoDbl]
  | cons c rest ih =>
    match rest, ih with
    | [], _ =>
      by_cases h : isSpaceJS c <;>
        simp [collapseWs, h, NoDbl, List.chain'_singleton]
    | d :: t, ih =>
      by_cases h : isSpaceJS c
      · by_cases hd : isSpaceJS d
        · simpa [collapseWs, h, hd] using ih
        · obtain ⟨r, hr⟩ := head_collapseWs t d
          rw [if_neg hd] at hr
          rw [NoDbl] at ih ⊢
          simp only [collapseWs, h, hd, if_true, Bool.false_eq_true, if_false]
          rw [List.chain'_cons']
          refine ⟨?_, ih⟩
          intro y hy
          rw [hr, List.head?_cons, Option.mem_def, Option.some.injEq] at hy
          subst hy
          simp [hd]
      · obtain ⟨r, hr⟩ := head_collapseWs t d
        rw [NoDbl] at ih ⊢
        simp only [collapseWs, h, Bool.false_eq_true, if_false]
        rw [List.chain'_cons']
        exact ⟨fun y _ hc => absurd hc.1 (by simp [h]), ih⟩

theorem mem_collapseWs {l : List Char} {c : Char} (hc : c ∈ collapseWs l) :
    c = ' ' ∨ (c ∈ l ∧ isSpaceJS c = false) := by
  induction l with
  | nil => simp [collapseWs] at hc
  | cons a rest ih =>
    match rest, ih, hc with
    | [], _, hc =>
      by_cases h : isSpaceJS a
      · simp [collapseWs, h] at hc
        exact Or.inl hc
      · simp [collapseWs, h] at hc
        subst hc
        exact Or.inr ⟨List.mem_cons_self _ _, by simpa using h⟩
    | d :: t, ih, hc =>
      by_cases h : isSpaceJS a
      · by_cases hd : isSpaceJS d
        · rw [collapseWs, if_pos h, if_pos hd] at hc
          rcases ih hc with h1 | ⟨h2, h3⟩
          · exact Or.inl h1
          · exact Or.inr ⟨List.mem_cons_of_mem _ h2, h3⟩
        · rw [collapseWs, if_pos h, if_neg hd, List.mem_cons] at hc
          rcases hc with h1 | h1
          · exact Or.inl h1
          · rcases ih h1 with h2 | ⟨h2, h3⟩
            · exact Or.inl h2
            · exact Or.inr ⟨List.mem_cons_of_mem _ h2, h3⟩
      · rw [collapseWs, if_neg h, List.mem_cons] at hc
        rcases hc with h1 | h1
        · subst h1
          exact Or.inr ⟨List.mem_cons_self _ _, by simpa using h⟩
        · rcases ih h1 with h2 | ⟨h2, h3⟩
          · exact Or.inl h2
          · exact Or.inr ⟨List.mem_cons_of_mem _ h2, h3⟩

theorem mem_collapseWs_of_nonWs {l : List Char} {c : Char} (hc : c ∈ l)
    (hw : isSpaceJS c = false) : c ∈ collapseWs l := by
  induction l with
  | nil => simp at hc
  | cons a rest ih =>
    match rest, ih, hc with
    | [], _, hc =>
      rcases List.mem_cons.mp hc with h1 | h1
      · subst h1
        simp [collapseWs, hw]
      · simp at h1
    | d :: t, ih, hc =>
      rcases List.mem_cons.mp hc with h1 | h1
      · subst h1
        rw [collapseWs, if_neg (by simp [hw])]
        exact List.mem_cons_self _ _
      · by_cases h : isSpaceJS a
        · by_cases hd : isSpaceJS d
          · rw [collapseWs, if_pos h, if_pos hd]
            exact ih h1
          · rw [collapseWs, if_pos h, if_neg hd]
            exact List.mem_cons_of_mem _ (ih h1)
        · rw [collapseWs, if_neg h]
          exact List.mem_cons_of_mem _ (ih h1)

theorem collapseWs_eq_self {l : List Char} (hn : NoDbl l) (hp : OnlyPlainWs l) :
    collapseWs l = l := by
  induction l with
  | nil => simp [collapseWs]
  | cons a rest ih =>
    match rest, ih, hn, hp with
    | [], _, hn, hp =>
      by_cases h : isSpaceJS a
      · have ha : a = ' ' := hp a (List.mem_cons_self _ _) h
        simp [collapseWs, h, ha]
      · simp [collapseWs, h]
    | d :: t, ih, hn, hp =>
      by_cases h : isSpaceJS a
      · have ha : a = ' ' := hp a (List.mem_cons_self _ _) h
        by_cases hd : isSpaceJS d
        · exfalso
          rw [NoDbl, List.chain'_cons] at hn
          exact hn.1 ⟨h, hd⟩
        · rw [collapseWs, if_pos h, if_neg hd, ha,
            ih (List.Chain'.tail hn) fun c hc hw => hp c (List.mem_cons_of_mem _ hc) hw]
      · rw [collapseWs, if_neg h,
          ih (List.Chain'.tail hn) fun c hc hw => hp c (List.mem_cons_of_mem _ hc) hw]

theorem head?_dropWhile {p : Char → Bool} {l : List Char} {c : Char}
    (h : (l.dropWhile p).head? = some c) : p c = false := by
  induction l with
  | nil => simp [List.dropWhile] at h
  | cons a rest ih =>
    rw [List.dropWhile_cons] at h
    by_cases ha : p a
    · rw [if_pos ha] at h
      exact ih h
    · rw [if_neg ha, List.head?_cons, Option.some.injEq] at h
      subst h
      simpa using ha

theorem dropWhile_eq_self_of_head {p : Char → Bool} {l : List Char}
    (h : ∀ c, l.head? = some c → p c = false) : l.dropWhile p = l := by
  cases l with
  | nil => simp
  | cons a rest =>
    rw [List.dropWhile_cons, if_neg (by simp [h a rfl])]

theorem mem_dropWhile_of_nonP {p : Char → Bool} {l : List Char} {c : Char}
    (hc : c ∈ l) (hp : p c = false) : c ∈ l.dropWhile p := by
  have := List.takeWhile_append_dropWhile p l
  rcases List.mem_append.mp (this ▸ hc) with h | h
  · exact absurd (List.mem_takeWhile_imp h) (by simp [hp])
  · exact h

theorem noDbl_reverse {l : List Char} (h : NoDbl l) : NoDbl l.reverse := by
  rw [NoDbl, List.chain'_reverse]
  exact h.imp fun a b hab => fun hc => hab ⟨hc.2, hc.1⟩

theorem trimWs_noDbl {l : List Char} (h : NoDbl l) : NoDbl (trimWs l) := by
  rw [trimWs]
  exact noDbl_reverse <| List.Chain'.suffix
    (noDbl_reverse <| List.Chain'.suffix h (List.dropWhile_suffix _))
    (List.dropWhile_suffix _)

theorem trimWs_plain {l : List Char} (h : OnlyPlainWs l) : OnlyPlainWs (trimWs l) := by
  intro c hc hw
  apply h c _ hw
  have h1 := (@List.dropWhile_sublist Char ((l.dropWhile isSpaceJS).reverse) isSpaceJS).subset
  have h2 := (@List.dropWhile_sublist Char l isSpaceJS).subset
  rw [trimWs] at hc
  rw [List.mem_reverse] at hc
  have := h1 hc
  rw [List.mem_reverse] at this
  exact h2 this

theorem trimWs_head {l : List Char} : HeadNonWs (trimWs l) := by
  intro c hc
  rw [trimWs, List.head?_reverse] at hc
  have h1 : ((l.dropWhile isSpaceJS).reverse.dropWhile isSpaceJS) ≠ [] := by
    intro hnil
    rw [hnil] at hc
    simp at hc
  obtain ⟨t, ht⟩ := (@List.dropWhile_suffix Char ((l.dropWhile isSpaceJS).reverse) isSpaceJS)
  have hgl : ((l.dropWhile isSpaceJS).reverse).getLast? = some c := by
    rw [← ht]
    rw [List.getLast?_append]
    rw [hc]
    rfl
  rw [List.getLast?_reverse] at hgl
  exact head?_dropWhile hgl

theorem trimWs_last {l : List Char} : LastNonWs (trimWs l) := by
  intro c hc
  rw [trimWs, List.getLast?_reverse] at hc
  exact head?_dropWhile hc

theorem trimWs_eq_self {l : List Char} (hh : HeadNonWs l) (hl : LastNonWs l) :
    trimWs l = l := by
  rw [trimWs, dropWhile_eq_self_of_head hh, dropWhile_eq_self_of_head
    (fun c hc => hl c (by rwa [← List.head?_reverse])), List.reverse_reverse]

theorem isSpaceJS_nbsp_fix (c : Char) :
    isSpaceJS (if c.toNat = 0xa0 then ' ' else c) = isSpaceJS c := by
  by_cases h : c.toNat = 0xa0
  · rw [if_pos h]
    simp [isSpaceJS, h]
  · rw [if_neg h]

theorem map_eq_self_of_fix {l : List Char} {f : Char → Char}
    (h : ∀ c ∈ l, f c = c) : l.map f = l := by
  induction l with
  | nil => rfl
  | cons a t ih =>
    simp only [List.map_cons, h a (List.mem_cons_self _ _), List.cons.injEq, true_and]
    exact ih fun c hc => h c (List.mem_cons_of_mem _ hc)

theorem replaceNbsp_eq_self {l : List Char} (hp : OnlyPlainWs l) :
    replaceNbsp l = l := by
  rw [replaceNbsp]
  apply map_eq_self_of_fix
  intro c hc
  have hpc : isSpaceJS c = true → c = ' ' := hp c hc
  by_cases h : c.toNat = 0xa0
  · have hw : isSpaceJS c = true := by simp [isSpaceJS, h]
    have := hpc hw
    subst this
    simp at h
  · simp [h]

theorem cleanText_isCleanStr (s : List Char) : IsCleanStr (cleanText s) := by
  refine ⟨trimWs_noDbl (noDbl_collapseWs _), ?_, trimWs_head, trimWs_last⟩
  apply trimWs_plain
  intro c hc hw
  rcases mem_collapseWs hc with h | ⟨_, h⟩
  · exact h
  · rw [h] at hw
    cases hw

theorem cleanText_eq_self_of_clean {l : List Char} (h : IsCleanStr l) :
    cleanText l = l := by
  obtain ⟨hn, hp, hh, hl⟩ := h
  rw [cleanText, replaceNbsp_eq_self hp, collapseWs_eq_self hn hp, trimWs_eq_self hh hl]

theorem cleanText_idem (s : List Char) : cleanText (cleanText s) = cleanText s :=
  cleanText_eq_self_of_clean (cleanText_isCleanStr s)

theorem cleanText_eq_nil_iff {s : List Char} :
    cleanText s = [] ↔ ∀ c ∈ s, isSpaceJS c = true := by
  constructor
  · intro h c hc
    by_contra hw
    have hw' : isSpaceJS c = false := by simpa using hw
    have h1 : c ∈ replaceNbsp s := by
      rw [replaceNbsp]
      refine List.mem_map.mpr ⟨c, hc, ?_⟩
      have : ¬c.toNat = 0xa0 := by
        intro hx
        rw [isSpaceJS] at hw'
        simp [hx] at hw'
      simp [this]
    have h2 : c ∈ collapseWs (replaceNbsp s) := mem_collapseWs_of_nonWs h1 hw'
    have h3 : c ∈ cleanText s := by
      rw [cleanText, trimWs, List.mem_reverse]
      apply mem_dropWhile_of_nonP _ hw'
      rw [List.mem_reverse]
      exact mem_dropWhile_of_nonP h2 hw'
    rw [h] at h3
    simp at h3
  · intro h
    have hall : ∀ c ∈ collapseWs (replaceNbsp s), isSpaceJS c = true := by
      intro c hc
      rcases mem_collapseWs hc with h1 | ⟨h2, h3⟩
      · subst h1
        rfl
      · obtain ⟨a, ha, rfl⟩ := List.mem_map.mp h2
        rw [isSpaceJS_nbsp_fix] at h3
        rw [h a ha] at h3
        cases h3
    rw [cleanText, trimWs, List.dropWhile_eq_nil_iff.mpr hall]
    simp

theorem cleanText_ne_nil_nonws {s : List Char} (h : cleanText s ≠ []) :
    ∃ c ∈ cleanText s, isSpaceJS c = false := by
  by_contra hc
  push_neg at hc
  apply h
  have hall : ∀ c ∈ cleanText s, isSpaceJS c = true := by
    intro c h1
    simpa using hc c h1
  have h2 : cleanText (cleanText s) = [] := cleanText_eq_nil_iff.mpr hall
  rwa [cleanText_idem] at h2

/-! ## Lemmas about the Unicode normalization model -/

theorem compTable_marks :
    compTable.all (fun p => isMark p.1.2) = true := by decide

theorem decompTable_closed :
    decompTable.all (fun p => p.2.all fun x =>
      isMark x || (decompTable.find? (fun q => q.1 == x)).isNone) = true := by decide

theorem compLookup_isMark {b c b' : Char} (h : compLookup b c = some b') :
    isMark c = true := by
  rw [compLookup, Option.map_eq_some'] at h
  obtain ⟨p, hp, _⟩ := h
  have hpred := List.find?_some hp
  have hmem := List.mem_of_find?_eq_some hp
  have hall := List.all_eq_true.mp compTable_marks p hmem
  rw [Bool.and_eq_true] at hpred
  have : p.1.2 = c := by simpa using hpred.2
  rwa [this] at hall

theorem decompose_nonmark {c x : Char} (hx : x ∈ decompose c)
    (hm : isMark x = false) : decompose x = [x] := by
  rw [decompose] at hx
  rcases hfind : decompTable.find? (fun p => p.1 == c) with _ | p
  · rw [hfind] at hx
    simp only [List.mem_singleton] at hx
    subst hx
    rw [decompose, hfind]
  · rw [hfind] at hx
    have hmem := List.mem_of_find?_eq_some hfind
    have hall := List.all_eq_true.mp decompTable_closed p hmem
    have hx' := List.all_eq_true.mp hall x hx
    rw [Bool.or_eq_true, hm] at hx'
    simp only [Bool.false_eq_true, false_or, Option.isNone_iff_eq_none] at hx'
    rw [decompose, hx']

theorem nfd_eq_self {u : List Char} (h : ∀ x ∈ u, decompose x = [x]) :
    nfd u = u := by
  induction u with
  | nil => rfl
  | cons a t ih =>
    rw [nfd, List.flatMap_cons, h a (List.mem_cons_self _ _)]
    rw [nfd] at ih
    rw [ih fun x hx => h x (List.mem_cons_of_mem _ hx)]
    rfl

theorem compGo_eq_cons {u : List Char} (h : ∀ x ∈ u, isMark x = false) :
    ∀ b, compGo b u = b :: u := by
  induction u with
  | nil => intro b; rfl
  | cons c t ih =>
    intro b
    rw [compGo]
    rcases hc : compLookup b c with _ | b'
    · rw [ih fun x hx => h x (List.mem_cons_of_mem _ hx)]
    · exact absurd (compLookup_isMark hc) (by simp [h c (List.mem_cons_self _ _)])

theorem composePairs_eq_self {u : List Char} (h : ∀ x ∈ u, isMark x = false) :
    composePairs u = u := by
  cases u with
  | nil => rfl
  | cons c t =>
    rw [composePairs, compGo_eq_cons fun x hx => h x (List.mem_cons_of_mem _ hx)]

theorem mem_nfd {s : List Char} {x : Char} (h : x ∈ nfd s) :
    ∃ c, x ∈ decompose c := by
  rw [nfd, List.mem_flatMap] at h
  obtain ⟨c, _, hc⟩ := h
  exact ⟨c, hc⟩

theorem stripDiacritics_chars (t : List Char) :
    stripDiacritics t = (nfd t).filter (fun c => !isMark c) ∧
      ∀ x ∈ stripDiacritics t, isMark x = false ∧ decompose x = [x] := by
  have hw : ∀ x ∈ (nfd t).filter (fun c => !isMark c),
      isMark x = false ∧ decompose x = [x] := by
    intro x hx
    rw [List.mem_filter] at hx
    have hm : isMark x = false := by simpa using hx.2
    obtain ⟨c, hc⟩ := mem_nfd hx.1
    exact ⟨hm, decompose_nonmark hc hm⟩
  have heq : stripDiacritics t = (nfd t).filter (fun c => !isMark c) := by
    rw [stripDiacritics, nfd_eq_self fun x hx => (hw x hx).2,
      composePairs_eq_self fun x hx => (hw x hx).1]
  refine ⟨heq, fun x hx => hw x (heq ▸ hx)⟩

/-- **C8**.  Comparison-key generation with `ignoreAccents = true` is
idempotent: applying `normalizeForCompare (·, true)` twice equals applying
it once. -/
theorem claim_c8_key_idempotent (s : List Char) :
    normalizeForCompare (normalizeForCompare s true) true =
      normalizeForCompare s true := by
  have hy := (stripDiacritics_chars (normalizeNFC s)).2
  rw [normalizeForCompare]
  simp only [if_true]
  set y := normalizeForCompare s true with hydef
  have hy' : ∀ x ∈ y, isMark x = false ∧ decompose x = [x] := by
    intro x hx
    apply hy
    rw [hydef, normalizeForCompare] at hx
    simpa using hx
  have hnfd : nfd y = y := nfd_eq_self fun x hx => (hy' x hx).2
  have hnfc : normalizeNFC y = y := by
    rw [normalizeNFC, hnfd, composePairs_eq_self fun x hx => (hy' x hx).1]
  rw [hnfc, stripDiacritics, hnfd,
    List.filter_eq_self.mpr fun x hx => by simp [(hy' x hx).1],
    hnfd, composePairs_eq_self fun x hx => (hy' x hx).1]

/-- **C9**.  Accent-insensitive equivalence: with `ignoreAccents = true` the
keys of "εἶπεν" and "ειπεν" coincide, and with `ignoreAccents = false` they
differ. -/
theorem claim_c9_accent_equiv :
    normalizeForCompare "εἶπεν".toList true =
        normalizeForCompare "ειπεν".toList true ∧
      normalizeForCompare "εἶπεν".toList false ≠
        normalizeForCompare "ειπεν".toList false := by
  constructor
  · rfl
  · decide

/-! ## Lemmas about the tokenizer -/

/-- **C4**.  Tokenization is lossless: concatenating the `value` fields of
`tokenizePreserve s` in order reproduces `s` exactly. -/
theorem claim_c4_tokenize_lossless (s : List Char) :
    ((tokenizePreserve s).map Token.value).flatten = s := by
  induction s using tokenizePreserve.induct with
  | case1 => simp [tokenizePreserve]
  | case2 c rest ih =>
    rw [tokenizePreserve]
    simp only [List.map_cons, List.flatten_cons]
    rw [ih, List.cons_append, List.takeWhile_append_dropWhile]

/-- **C5**.  Tokenization invariants: no two adjacent tokens share a kind,
every token's value is non-empty, and a token is a `word` iff every one of
its characters is a letter or combining mark. -/
theorem claim_c5_tokenize_invariants (s : List Char) :
    List.Chain' (fun a b => a.kind ≠ b.kind) (tokenizePreserve s) ∧
      ∀ t ∈ tokenizePreserve s, t.value ≠ [] ∧
        (t.kind = TokenKind.word ↔ ∀ c ∈ t.value, isWordChar c = true) := by
  induction s using tokenizePreserve.induct with
  | case1 => exact ⟨by rw [tokenizePreserve]; exact List.chain'_nil, by simp [tokenizePreserve]⟩
  | case2 c rest ih =>
    rw [tokenizePreserve]
    constructor
    · rw [List.chain'_cons']
      refine ⟨?_, ih.1⟩
      intro y hy
      rcases hrest : rest.dropWhile (fun x => isWordChar x == isWordChar c) with _ | ⟨d, t'⟩
      · rw [hrest, tokenizePreserve] at hy
        simp at hy
      · rw [hrest, tokenizePreserve] at hy
        simp only [List.head?_cons, Option.mem_def, Option.some.injEq] at hy
        subst hy
        have hd : (isWordChar d == isWordChar c) = false :=
          head?_dropWhile (by rw [hrest]; rfl)
        simp only [beq_eq_false_iff_ne, ne_eq] at hd
        by_cases hc : isWordChar c <;> simp [hc] at hd ⊢ <;> simp [hd]
    · intro t ht
      rcases List.mem_cons.mp ht with h1 | h1
      · subst h1
        refine ⟨by simp, ?_⟩
        by_cases hc : isWordChar c
        · constructor
          · intro _ x hx
            rcases List.mem_cons.mp hx with h2 | h2
            · subst h2; exact hc
            · have h3 := List.mem_takeWhile_imp h2
              rw [beq_iff_eq, hc] at h3
              exact h3
          · intro _
            simp [hc]
        · constructor
          · intro h2
            simp only [hc, if_false, Bool.false_eq_true] at h2
            cases h2
          · intro h2
            exact absurd (h2 c (List.mem_cons_self _ _)) (by simp [hc])
      · exact ih.2 t h1

/-! ## Lemmas about the mission set and the found-count ledger -/

theorem recGet_cons (p : List Char × Nat) (rest : List (List Char × Nat))
    (k : List Char) :
    recGet (p :: rest) k = if p.1 == k then p.2 else recGet rest k := by
  by_cases h : p.1 == k
  · rw [recGet, @List.find?_cons_of_pos _ (fun q => q.1 == k) p rest h, if_pos h]
  · rw [recGet, @List.find?_cons_of_neg _ (fun q => q.1 == k) p rest h, if_neg h, recGet]

theorem recGet_recSet_same (m : List (List Char × Nat)) (k : List Char) (v : Nat) :
    recGet (recSet m k v) k = v := by
  induction m with
  | nil => simp [recSet, recGet, List.find?]
  | cons p rest ih =>
    by_cases h : p.1 == k
    · rw [recSet, if_pos h, recGet_cons]
      simp
    · rw [recSet, if_neg h, recGet_cons, if_neg h]
      exact ih

theorem recGet_recSet_other (m : List (List Char × Nat)) (k k' : List Char) (v : Nat)
    (h : k' ≠ k) : recGet (recSet m k v) k' = recGet m k' := by
  have hkk : (k == k') = false := by
    rw [beq_eq_false_iff_ne]
    exact fun he => h he.symm
  induction m with
  | nil => simp [recSet, recGet, List.find?, hkk]
  | cons p rest ih =>
    by_cases hp : p.1 == k
    · have hp' : p.1 = k := by rwa [beq_iff_eq] at hp
      rw [recSet, if_pos hp, recGet_cons, recGet_cons]
      simp [hkk, hp']
    · rw [recSet, if_neg hp, recGet_cons, recGet_cons, ih]

/-- **C10**.  A word click is atomic on the found-count ledger: a click
whose comparison key misses the mission set leaves `foundCounts` entirely
unchanged; a hit increments exactly that key's count by 1 and leaves every
other key unchanged; counts never decrease. -/
theorem claim_c10_click_atomic (word : List Char) (missionKeys : List (List Char))
    (ig : Bool) (prev : List (List Char × Nat)) :
    (normalizeForCompare word ig ∉ missionKeys →
        (onWordClick word missionKeys ig prev).2 = prev) ∧
      (normalizeForCompare word ig ∈ missionKeys →
        recGet (onWordClick word missionKeys ig prev).2 (normalizeForCompare word ig) =
            recGet prev (normalizeForCompare word ig) + 1 ∧
          ∀ k, k ≠ normalizeForCompare word ig →
            recGet (onWordClick word missionKeys ig prev).2 k = recGet prev k) ∧
      ∀ k, recGet prev k ≤ recGet (onWordClick word missionKeys ig prev).2 k := by
  by_cases hmem : normalizeForCompare word ig ∈ missionKeys
  · have hc : missionKeys.contains (normalizeForCompare word ig) = true :=
      List.elem_iff.mpr hmem
    refine ⟨fun h => absurd hmem h, fun _ => ⟨?_, ?_⟩, ?_⟩
    · simp only [onWordClick, hc, if_true]
      exact recGet_recSet_same _ _ _
    · intro k hk
      simp only [onWordClick, hc, if_true]
      exact recGet_recSet_other _ _ _ _ hk
    · intro k
      by_cases hk : k = normalizeForCompare word ig
      · subst hk
        simp only [onWordClick, hc, if_true]
        rw [recGet_recSet_same]
        exact Nat.le_succ _
      · simp only [onWordClick, hc, if_true]
        rw [recGet_recSet_other _ _ _ _ hk]
  · refine ⟨fun _ => ?_, fun h => absurd h hmem, fun k => ?_⟩
    · simp [onWordClick, hmem]
    · simp [onWordClick, hmem]

/-- **C10 witness**: the frame property evaluated at a concrete click — the
mission `{"θεος"}`, a hit on `"θεος"` over the ledger `{"αλλος" ↦ 2}`. -/
theorem claim_c10_click_atomic_witness :
    recGet (onWordClick "θεος".toList ["θεος".toList] true
        [("αλλος".toList, 2)]).2 "θεος".toList = recGet [("αλλος".toList, 2)] "θεος".toList + 1 ∧
      recGet (onWordClick "θεος".toList ["θεος".toList] true
        [("αλλος".toList, 2)]).2 "αλλος".toList = recGet [("αλλος".toList, 2)] "αλλος".toList := by
  have h := claim_c10_click_atomic "θεος".toList ["θεος".toList] true [("αλλος".toList, 2)]
  have hm : normalizeForCompare "θεος".toList true ∈ ["θεος".toList] := by decide
  have h2 := h.2.1 hm
  have he : normalizeForCompare "θεος".toList true = "θεος".toList := by decide
  refine ⟨?_, ?_⟩
  · rw [← he]
    exact h2.1
  · exact h2.2 "αλλος".toList (by decide)

/-- **C1** fails on the code: `normalizeForCompare` does not lowercase, so
with the mission built from the single line "θεος" and
`ignoreAccents = true`, clicking the word "Θεός" (capital theta) yields
`isMatch = false` — not `true` — and the found-count for the key "θεος"
stays 0 instead of becoming 1. -/
theorem claim_c1_counterexample :
    (onWordClick "Θεός".toList (missionSet "θεος".toList true) true []).1 = false ∧
      recGet (onWordClick "Θεός".toList (missionSet "θεος".toList true) true []).2
        "θεος".toList = 0 := by decide

/-- **C1 amended**.  The comparison key does not lowercase its input:
matching is case-sensitive.  For the mission set built from the single line
"θεος" with `ignoreAccents = true`, clicking "Θεός" yields
`isMatch = false` and leaves the found-count for "θεος" at 0, while
clicking the same-case accented word "θεός" yields `isMatch = true` and
increments that found-count from 0 to 1. -/
theorem claim_c1_amended :
    (onWordClick "Θεός".toList (missionSet "θεος".toList true) true []).1 = false ∧
      recGet (onWordClick "Θεός".toList (missionSet "θεος".toList true) true []).2
        "θεος".toList = 0 ∧
      (onWordClick "θεός".toList (missionSet "θεος".toList true) true []).1 = true ∧
      recGet (onWordClick "θεός".toList (missionSet "θεος".toList true) true []).2
        "θεος".toList = 1 := by decide

/-! ## The proxy GET handler -/

/-- **C6**.  The proxy GET handler rejects a missing, non-numeric or
out-of-range chapter parameter with status 400 before any upstream request
(the `Option Nat` component of `GET` records the upstream call, `none`
meaning no upstream request was made); a valid chapter with a non-success
upstream response yields status 502; otherwise the raw upstream body is
returned with status 200. -/
theorem claim_c6_proxy_statuses (chapter : Option (List Char))
    (upstream : Nat → UpstreamResp) :
    (chapter = none →
        (GET chapter upstream).1.status = 400 ∧ (GET chapter upstream).2 = none) ∧
      (∀ s, chapter = some s →
        ¬(s ≠ [] ∧ s.all Char.isDigit = true ∧ 1 ≤ parseDec s ∧ parseDec s ≤ 28) →
        (GET chapter upstream).1.status = 400 ∧ (GET chapter upstream).2 = none) ∧
      (∀ s, chapter = some s →
        (s ≠ [] ∧ s.all Char.isDigit = true ∧ 1 ≤ parseDec s ∧ parseDec s ≤ 28) →
        (upstream (parseDec s)).ok = false →
        (GET chapter upstream).1.status = 502) ∧
      (∀ s, chapter = some s →
        (s ≠ [] ∧ s.all Char.isDigit = true ∧ 1 ≤ parseDec s ∧ parseDec s ≤ 28) →
        (upstream (parseDec s)).ok = true →
        (GET chapter upstream).1.status = 200 ∧
          (GET chapter upstream).1.body = (upstream (parseDec s)).body) := by
  refine ⟨fun h => by subst h; exact ⟨rfl, rfl⟩, ?_, ?_, ?_⟩
  · rintro s rfl hbad
    by_cases h1 : s.isEmpty || !(s.all Char.isDigit)
    · rw [GET]
      simp only [h1, if_true]
      constructor <;> trivial
    · have hne : s ≠ [] := by
        intro h
        subst h
        simp at h1
      have hdig : s.all Char.isDigit = true := by
        rcases hd : s.all Char.isDigit with _ | _
        · rw [hd] at h1
          simp at h1
        · rfl
      have hrange : ¬(1 ≤ parseDec s ∧ parseDec s ≤ 28) := by
        intro hr
        exact hbad ⟨hne, hdig, hr.1, hr.2⟩
      have h2 : (decide (parseDec s < 1) || decide (parseDec s > 28)) = true := by
        rcases Nat.lt_or_ge (parseDec s) 1 with h | h
        · simp [h]
        · rcases Nat.lt_or_ge 28 (parseDec s) with h' | h'
          · simp [h']
          · exact absurd ⟨h, h'⟩ hrange
      rw [GET]
      simp only [h1, Bool.false_eq_true, if_false, h2, if_true]
      constructor <;> trivial
  · rintro s rfl hok hbadup
    have h1 : (s.isEmpty || !(s.all Char.isDigit)) = false := by
      simp [hok.1, hok.2.1]
    have h2 : (decide (parseDec s < 1) || decide (parseDec s > 28)) = false := by
      have ha := hok.2.2.1
      have hb := hok.2.2.2
      simp only [Bool.or_eq_false_iff, decide_eq_false_iff_not]
      omega
    rw [GET]
    simp only [h1, Bool.false_eq_true, if_false, h2, hbadup]
    rfl
  · rintro s rfl hok hgoodup
    have h1 : (s.isEmpty || !(s.all Char.isDigit)) = false := by
      simp [hok.1, hok.2.1]
    have h2 : (decide (parseDec s < 1) || decide (parseDec s > 28)) = false := by
      have ha := hok.2.2.1
      have hb := hok.2.2.2
      simp only [Bool.or_eq_false_iff, decide_eq_false_iff_not]
      omega
    rw [GET]
    simp only [h1, Bool.false_eq_true, if_false, h2, hgoodup]
    exact ⟨rfl, rfl⟩

/-- **C6 witness**: concrete rejections for chapters `"0"`, `"29"`, `"abc"`
and a missing parameter (status 400, no upstream call), a 502 on upstream
failure for chapter `"3"`, and a 200 passing the raw body through. -/
theorem claim_c6_proxy_statuses_witness :
    ((GET (some "0".toList) (fun _ => ⟨true, 200, "html".toList⟩)).1.status = 400 ∧
        (GET (some "0".toList) (fun _ => ⟨true, 200, "html".toList⟩)).2 = none) ∧
      ((GET (some "29".toList) (fun _ => ⟨true, 200, "html".toList⟩)).1.status = 400 ∧
        (GET (some "29".toList) (fun _ => ⟨true, 200, "html".toList⟩)).2 = none) ∧
      ((GET (some "abc".toList) (fun _ => ⟨true, 200, "html".toList⟩)).1.status = 400 ∧
        (GET (some "abc".toList) (fun _ => ⟨true, 200, "html".toList⟩)).2 = none) ∧
      ((GET none (fun _ => ⟨true, 200, "html".toList⟩)).1.status = 400 ∧
        (GET none (fun _ => ⟨true, 200, "html".toList⟩)).2 = none) ∧
      (GET (some "3".toList) (fun _ => ⟨false, 503, []⟩)).1.status = 502 ∧
      ((GET (some "3".toList) (fun _ => ⟨true, 200, "html".toList⟩)).1.status = 200 ∧
        (GET (some "3".toList) (fun _ => ⟨true, 200, "html".toList⟩)).1.body = "html".toList) :=
  ⟨(claim_c6_proxy_statuses (some "0".toList) _).2.1 _ rfl (by decide),
    (claim_c6_proxy_statuses (some "29".toList) _).2.1 _ rfl (by decide),
    (claim_c6_proxy_statuses (some "abc".toList) _).2.1 _ rfl (by decide),
    (claim_c6_proxy_statuses none _).1 rfl,
    (claim_c6_proxy_statuses (some "3".toList) _).2.2.1 _ rfl (by decide) rfl,
    (claim_c6_proxy_statuses (some "3".toList) _).2.2.2 _ rfl (by decide) rfl⟩

/-! ## Lemmas about the document-order listing -/

theorem splitsOk_nil : SplitsOk ([] : List DomNode) := by
  intro l₁ n l₂ h
  cases l₁ <;> simp at h

theorem splitsOk_of_cons {x : DomNode} {l : List DomNode} (h : SplitsOk (x :: l)) :
    SplitsOk l := by
  intro l₁ n l₂ he
  exact h (x :: l₁) n l₂ (by rw [he]; rfl)

theorem splitsOk_append : ∀ xs : List DomNode, SplitsOk xs →
    ∀ ys : List DomNode, SplitsOk ys → SplitsOk (xs ++ ys) := by
  intro xs
  induction xs with
  | nil =>
    intro _ ys hy
    simpa using hy
  | cons x xs' ih =>
    intro hx ys hy l₁ n l₂ he
    cases l₁ with
    | nil =>
      rw [List.nil_append, List.cons_append] at he
      injection he with h1 h2
      subst h1
      obtain ⟨l₃, hl₃⟩ := hx [] x xs' rfl
      refine ⟨l₃ ++ ys, ?_⟩
      rw [← h2, hl₃, List.append_assoc]
    | cons a l₁' =>
      rw [List.cons_append, List.cons_append] at he
      injection he with h1 h2
      exact ih (splitsOk_of_cons hx) ys hy l₁' n l₂ h2

mutual

theorem splitsOk_preorder (n : DomNode) : SplitsOk (preorder n) := by
  match n with
  | .text s =>
    intro l₁ m l₂ he
    rw [preorder] at he
    match l₁, he with
    | [], he =>
      injection he with h1 h2
      subst h1
      exact ⟨[], by rw [← h2]; rfl⟩
    | a :: l₁', he =>
      injection he with h1 h2
      exact absurd h2.symm (by simp)
  | .element t cs =>
    intro l₁ m l₂ he
    rw [preorder] at he
    match l₁, he with
    | [], he =>
      injection he with h1 h2
      subst h1
      exact ⟨[], by rw [← h2, descFlat, List.append_nil]⟩
    | a :: l₁', he =>
      injection he with h1 h2
      exact splitsOk_preorderList cs l₁' m l₂ h2

theorem splitsOk_preorderList (ns : List DomNode) : SplitsOk (preorderList ns) := by
  match ns with
  | [] =>
    rw [preorderList]
    exact splitsOk_nil
  | n :: rest =>
    rw [preorderList]
    exact splitsOk_append _ (splitsOk_preorder n) _ (splitsOk_preorderList rest)

end

theorem cleanText_append_ne_nil {a b : List Char} (h : cleanText (a ++ b) ≠ []) :
    cleanText a ≠ [] ∨ cleanText b ≠ [] := by
  by_contra hc
  push_neg at hc
  apply h
  rw [cleanText_eq_nil_iff]
  intro c hcmem
  rcases List.mem_append.mp hcmem with h1 | h1
  · exact cleanText_eq_nil_iff.mp hc.1 c h1
  · exact cleanText_eq_nil_iff.mp hc.2 c h1

mutual

theorem textNode_exists (n : DomNode) (h : cleanText (textContent n) ≠ []) :
    ∃ s, DomNode.text s ∈ preorder n ∧ cleanText s ≠ [] := by
  match n with
  | .text s =>
    rw [textContent] at h
    exact ⟨s, by rw [preorder]; exact List.mem_singleton.mpr rfl, h⟩
  | .element t cs =>
    rw [textContent] at h
    obtain ⟨s, hs1, hs2⟩ := textNode_exists_list cs h
    exact ⟨s, by rw [preorder]; exact List.mem_cons_of_mem _ hs1, hs2⟩

theorem textNode_exists_list (ns : List DomNode)
    (h : cleanText (textContentList ns) ≠ []) :
    ∃ s, DomNode.text s ∈ preorderList ns ∧ cleanText s ≠ [] := by
  match ns with
  | [] =>
    rw [textContentList] at h
    exact absurd rfl h
  | n :: rest =>
    rw [textContentList] at h
    rcases cleanText_append_ne_nil h with h1 | h1
    · obtain ⟨s, hs1, hs2⟩ := textNode_exists n h1
      exact ⟨s, by rw [preorderList]; exact List.mem_append_left _ hs1, hs2⟩
    · obtain ⟨s, hs1, hs2⟩ := textNode_exists_list rest h1
      exact ⟨s, by rw [preorderList]; exact List.mem_append_right _ hs1, hs2⟩

end

theorem mem_joinSp {l : List (List Char)} {x : List Char} {c : Char}
    (hx : x ∈ l) (hc : c ∈ x) : c ∈ joinSp l := by
  induction l with
  | nil => simp at hx
  | cons a rest ih =>
    match rest, ih, hx with
    | [], _, hx =>
      rw [List.mem_singleton] at hx
      subst hx
      rw [joinSp]
      exact hc
    | b :: t, ih, hx =>
      rw [joinSp]
      rcases List.mem_cons.mp hx with h1 | h1
      · subst h1
        exact List.mem_append_left _ hc
      · exact List.mem_append_right _ (List.mem_cons_of_mem _ (ih h1))

theorem takeWhile_eq_self_of_all {p : DomNode → Bool} {l : List DomNode}
    (h : ∀ x ∈ l, p x = true) : l.takeWhile p = l := by
  induction l with
  | nil => rfl
  | cons a t ih =>
    rw [List.takeWhile_cons, if_pos (h a (List.mem_cons_self _ _)),
      ih fun x hx => h x (List.mem_cons_of_mem _ hx)]

theorem collectText_ne_nil {l₂ : List DomNode} {s : List Char}
    (hmem : DomNode.text s ∈ l₂) (hs : cleanText s ≠ [])
    (hnosup : ∀ m ∈ l₂, isVerseSup m = false) :
    collectTextUntilNextSup l₂ ≠ [] := by
  rw [collectTextUntilNextSup]
  have htw : l₂.takeWhile (fun n => !isVerseSup n) = l₂ :=
    takeWhile_eq_self_of_all fun x hx => by rw [hnosup x hx]; rfl
  rw [htw]
  have hleaf : leafTextOf (DomNode.text s) = some (cleanText s) := by
    rw [leafTextOf]
    simp [hs]
  have hmem2 : cleanText s ∈ l₂.filterMap leafTextOf :=
    List.mem_filterMap.mpr ⟨_, hmem, hleaf⟩
  obtain ⟨c, hc1, hc2⟩ := cleanText_ne_nil_nonws hs
  have hcj : c ∈ joinSp (l₂.filterMap leafTextOf) := mem_joinSp hmem2 hc1
  intro hnil
  rw [cleanText_eq_nil_iff] at hnil
  rw [hnil c hcj] at hc2
  cases hc2

theorem primaryVerses_ne_nil : ∀ (l₁ : List DomNode) (n : DomNode) (l₂ : List DomNode),
    isVerseSup n = true → collectTextUntilNextSup l₂ ≠ [] →
    primaryVerses (l₁ ++ n :: l₂) ≠ [] := by
  intro l₁
  induction l₁ with
  | nil =>
    intro n l₂ hn ht
    rw [List.nil_append, primaryVerses, if_pos hn, if_neg ht]
    simp
  | cons a t ih =>
    intro n l₂ hn ht
    rw [List.cons_append, primaryVerses]
    by_cases ha : isVerseSup a
    · rw [if_pos ha]
      by_cases hc : collectTextUntilNextSup (t ++ n :: l₂) = []
      · rw [if_pos hc]
        exact ih n l₂ hn ht
      · rw [if_neg hc]
        simp
    · rw [if_neg ha]
      exact ih n l₂ hn ht

theorem exists_last_with {α : Type} (p : α → Bool) :
    ∀ l : List α, (∃ x ∈ l, p x = true) →
    ∃ l₁ x l₂, l = l₁ ++ x :: l₂ ∧ p x = true ∧ ∀ y ∈ l₂, p y = false := by
  intro l
  induction l with
  | nil =>
    rintro ⟨x, hx, _⟩
    simp at hx
  | cons a t ih =>
    rintro ⟨x, hx, hpx⟩
    by_cases ht : ∃ y ∈ t, p y = true
    · obtain ⟨l₁, y, l₂, h1, h2, h3⟩ := ih ht
      exact ⟨a :: l₁, y, l₂, by rw [h1]; rfl, h2, h3⟩
    · push_neg at ht
      have hax : p a = true := by
        rcases List.mem_cons.mp hx with h1 | h1
        · subst h1
          exact hpx
        · exact absurd hpx (ht x h1)
      refine ⟨[], a, t, rfl, hax, fun y hy => ?_⟩
      have := ht y hy
      simpa using this

/-- **C2**.  If the parsed body contains at least one valid verse-number
marker, `extractVersesFromHtml` never takes the fallback plain-text
splitting path: the primary strategy always produces at least one verse
(the last marker's own digit text is collected by the walk), so the
`verses.length === 0` condition guarding the fallback is false. -/
theorem claim_c2_no_fallback_with_marker (body : DomNode)
    (h : (preorder body).any isVerseSup = true) : usesFallback body = false := by
  rw [usesFallback, List.isEmpty_eq_false]
  obtain ⟨l₁, n, l₂, hsplit, hn, hafter⟩ :=
    exists_last_with isVerseSup _ (List.any_eq_true.mp h)
  obtain ⟨tag, cs, rfl⟩ : ∃ tag cs, n = DomNode.element tag cs := by
    cases n with
    | element tag cs => exact ⟨tag, cs, rfl⟩
    | text s =>
      rw [isVerseSup] at hn
      cases hn
  have htc : cleanText (textContentList cs) ≠ [] := by
    rw [isVerseSup, Bool.and_eq_true] at hn
    have hd := hn.2
    rw [isDigits1to3] at hd
    intro hnil
    rw [hnil] at hd
    simp at hd
  obtain ⟨s, hsmem, hsne⟩ := textNode_exists_list cs htc
  obtain ⟨l₃, hl₃⟩ := splitsOk_preorder body l₁ _ l₂ hsplit
  have hsmem2 : DomNode.text s ∈ l₂ := by
    rw [hl₃]
    exact List.mem_append_left _ hsmem
  have hcoll := collectText_ne_nil hsmem2 hsne hafter
  have hne := primaryVerses_ne_nil l₁ _ l₂ hn hcoll
  rwa [← hsplit] at hne

/-- **C2 witness**: a concrete document with one valid marker
(`<sup>1</sup>` followed by text) for which the primary strategy is used. -/
theorem claim_c2_no_fallback_with_marker_witness :
    ((preorder (DomNode.element "body".toList
        [DomNode.element "sup".toList [DomNode.text "1".toList],
         DomNode.text " hello".toList])).any isVerseSup = true) ∧
      usesFallback (DomNode.element "body".toList
        [DomNode.element "sup".toList [DomNode.text "1".toList],
         DomNode.text " hello".toList]) = false :=
  ⟨by decide, claim_c2_no_fallback_with_marker _ (by decide)⟩

/-! ## Dedup and sort lemmas, claims C3 and C7 -/

theorem mem_dedupGo : ∀ (vs : List Verse) (seen : List (Nat × List Char)) (x : Verse),
    x ∈ dedupGo seen vs → x ∈ vs := by
  intro vs
  induction vs with
  | nil =>
    intro seen x hx
    simp [dedupGo] at hx
  | cons y rest ih =>
    intro seen x hx
    rw [dedupGo] at hx
    by_cases hk : seen.contains (y.v, y.t.take 40)
    · rw [if_pos hk] at hx
      exact List.mem_cons_of_mem _ (ih seen x hx)
    · rw [if_neg hk] at hx
      rcases List.mem_cons.mp hx with h1 | h1
      · subst h1
        exact List.mem_cons_self _ _
      · exact List.mem_cons_of_mem _ (ih _ x h1)

theorem dedupGo_key_nodup : ∀ (vs : List Verse) (seen : List (Nat × List Char)),
    ((dedupGo seen vs).map fun x => (x.v, x.t.take 40)).Nodup ∧
      ∀ k ∈ (dedupGo seen vs).map fun x => (x.v, x.t.take 40),
        seen.contains k = false := by
  intro vs
  induction vs with
  | nil =>
    intro seen
    constructor
    · simp [dedupGo]
    · simp [dedupGo]
  | cons x rest ih =>
    intro seen
    rw [dedupGo]
    by_cases hk : seen.contains (x.v, x.t.take 40)
    · rw [if_pos hk]
      exact ih seen
    · rw [if_neg hk]
      obtain ⟨ih1, ih2⟩ := ih ((x.v, x.t.take 40) :: seen)
      constructor
      · rw [List.map_cons, List.nodup_cons]
        refine ⟨?_, ih1⟩
        intro hmem
        have h2 := ih2 _ hmem
        rw [List.contains_cons] at h2
        simp at h2
      · intro k hk2
        rw [List.map_cons, List.mem_cons] at hk2
        rcases hk2 with h1 | h1
        · subst h1
          simpa using hk
        · have h2 := ih2 k h1
          rw [List.contains_cons, Bool.or_eq_false_iff] at h2
          exact h2.2

/-- On every input tree the verse numbers of the claim's extraction are only
guaranteed to be sorted ascending — the claim's strict increase fails:
dedup keeps two verses with the same number when their 40-character text
keys differ.  The markup `<sup>1</sup>a<sup>1</sup>b` produces two verses
numbered 1, so the number sequence `[1, 1]` is not strictly increasing. -/
theorem claim_c3_counterexample :
    ((extractVersesFromHtml (DomNode.element "body".toList
        [DomNode.element "sup".toList [DomNode.text "1".toList],
         DomNode.text " alpha ".toList,
         DomNode.element "sup".toList [DomNode.text "1".toList],
         DomNode.text " beta".toList])).map Verse.v = [1, 1]) ∧
      ¬ List.Chain' (fun a b => a < b)
        ((extractVersesFromHtml (DomNode.element "body".toList
          [DomNode.element "sup".toList [DomNode.text "1".toList],
           DomNode.text " alpha ".toList,
           DomNode.element "sup".toList [DomNode.text "1".toList],
           DomNode.text " beta".toList])).map Verse.v) := by
  have h1 : (extractVersesFromHtml (DomNode.element "body".toList
      [DomNode.element "sup".toList [DomNode.text "1".toList],
       DomNode.text " alpha ".toList,
       DomNode.element "sup".toList [DomNode.text "1".toList],
       DomNode.text " beta".toList])).map Verse.v = [1, 1] := by decide
  refine ⟨h1, ?_⟩
  rw [h1]
  intro hch
  rw [List.chain'_cons] at hch
  exact absurd hch.1 (by omega)

/-- **C3 amended**.  After deduplication and the ascending sort, the verse
numbers of `extractVersesFromHtml` are sorted non-decreasing and the
`(number, first-40-characters-of-text)` composite keys are pairwise
distinct; numbers alone need not be strictly increasing (two verses may
share a number with different text). -/
theorem claim_c3_amended (body : DomNode) :
    List.Pairwise (fun a b : Verse => a.v ≤ b.v) (extractVersesFromHtml body) ∧
      ((extractVersesFromHtml body).map fun x => (x.v, x.t.take 40)).Nodup := by
  rw [extractVersesFromHtml]
  constructor
  · exact List.sorted_insertionSort _ _
  · have hperm := List.perm_insertionSort (fun a b : Verse => a.v ≤ b.v)
      (dedupVerses (if usesFallback body then fallbackVerses body
        else primaryVerses (preorder body)))
    have hnd := (dedupGo_key_nodup (if usesFallback body then fallbackVerses body
      else primaryVerses (preorder body)) []).1
    rw [dedupVerses] at hperm ⊢
    exact ((hperm.map _).nodup_iff).mpr hnd

theorem primaryVerses_text : ∀ (l : List DomNode) (x : Verse),
    x ∈ primaryVerses l → x.t ≠ [] ∧ cleanText x.t = x.t := by
  intro l
  induction l with
  | nil =>
    intro x hx
    simp [primaryVerses] at hx
  | cons n rest ih =>
    intro x hx
    rw [primaryVerses] at hx
    by_cases hn : isVerseSup n
    · rw [if_pos hn] at hx
      by_cases hc : collectTextUntilNextSup rest = []
      · rw [if_pos hc] at hx
        exact ih x hx
      · rw [if_neg hc] at hx
        rcases List.mem_cons.mp hx with h1 | h1
        · subst h1
          refine ⟨hc, ?_⟩
          rw [collectTextUntilNextSup]
          exact cleanText_idem _
        · exact ih x h1
    · rw [if_neg hn] at hx
      exact ih x hx

theorem lookaheadVerse_ne_nil {l : List Char} (h : lookaheadVerse l = true) : l ≠ [] := by
  intro hn
  subst hn
  cases h

theorem getLast?_append_right {l₁ l₂ : List Char} {a : Char}
    (h : l₂.getLast? = some a) : (l₁ ++ l₂).getLast? = some a := by
  rw [List.getLast?_append, h]
  rfl

theorem noDbl_last_before {xs ys : List Char} {c : Char}
    (h : NoDbl (xs ++ c :: ys)) (hc : isSpaceJS c = true) :
    ∀ a, xs.getLast? = some a → isSpaceJS a = false := by
  intro a ha
  rw [NoDbl, List.chain'_append] at h
  have h2 := h.2.2 a (by rw [ha]; rfl) c rfl
  rcases hw : isSpaceJS a with _ | _
  · rfl
  · exact absurd ⟨hw, hc⟩ h2

theorem splitVerseGo_pieces : ∀ (l acc : List Char),
    NoDbl (acc.reverse ++ l) → LastNonWs (acc.reverse ++ l) →
    ∀ p ∈ splitVerseGo acc l, p = [] ∨ LastNonWs p := by
  intro l
  induction l with
  | nil =>
    intro acc h1 h2 p hp
    rw [splitVerseGo, List.mem_singleton] at hp
    subst hp
    rw [List.append_nil] at h2
    exact Or.inr h2
  | cons c rest ih =>
    intro acc h1 h2 p hp
    rw [splitVerseGo] at hp
    by_cases hsep : isSpaceJS c && lookaheadVerse rest
    · rw [if_pos hsep] at hp
      rw [Bool.and_eq_true] at hsep
      rcases List.mem_cons.mp hp with hp1 | hp1
      · subst hp1
        rcases hacc : acc.reverse.getLast? with _ | a
        · rw [List.getLast?_eq_none_iff] at hacc
          exact Or.inl hacc
        · refine Or.inr fun b hb => ?_
          rw [hacc] at hb
          injection hb with hb
          subst hb
          exact noDbl_last_before h1 hsep.1 a hacc
      · have hrest : rest ≠ [] := lookaheadVerse_ne_nil hsep.2
        have hnd : NoDbl rest := by
          rw [NoDbl, List.chain'_append] at h1
          exact h1.2.1.tail
        have hlw : LastNonWs rest := by
          intro a ha
          apply h2 a
          exact getLast?_append_right (@getLast?_append_right [c] _ _ ha)
        have := ih [] (by simpa using hnd) (by simpa using hlw) p hp1
        exact this
    · rw [if_neg hsep] at hp
      have heq : (c :: acc).reverse ++ rest = acc.reverse ++ c :: rest := by
        rw [List.reverse_cons, List.append_assoc]
        rfl
      exact ih (c :: acc) (by rwa [heq]) (by rwa [heq]) p hp

theorem parsePiece_text {p : List Char} {x : Verse} (hp : parsePiece p = some x)
    (hlast : p = [] ∨ LastNonWs p) : x.t ≠ [] ∧ cleanText x.t = x.t := by
  rw [parsePiece] at hp
  split at hp
  · cases hp
  · next c rest' heq =>
    split at hp
    · next hcond =>
      injection hp with hp
      subst hp
      have hsplit : p.takeWhile Char.isDigit ++ (c :: rest') = p := by
        rw [← heq]
        exact List.takeWhile_append_dropWhile _ _
      have hlw : LastNonWs p := by
        rcases hlast with h | h
        · subst h
          simp at heq
        · exact h
      have hdw : (c :: rest').dropWhile isSpaceJS ≠ [] := by
        intro hdn
        rw [List.dropWhile_eq_nil_iff] at hdn
        rcases hg : (c :: rest').getLast? with _ | a
        · rw [List.getLast?_eq_none_iff] at hg
          cases hg
        · have hmem : a ∈ c :: rest' := List.mem_of_mem_getLast? hg
          have hws : isSpaceJS a = true := hdn a hmem
          have hgp : p.getLast? = some a := by
            rw [← hsplit]
            exact getLast?_append_right hg
          rw [hlw a hgp] at hws
          cases hws
      rcases hdrop : (c :: rest').dropWhile isSpaceJS with _ | ⟨d, u⟩
      · exact absurd hdrop hdw
      · have hd : isSpaceJS d = false := head?_dropWhile (by rw [hdrop]; rfl)
        constructor
        · intro hnil
          rw [cleanText_eq_nil_iff] at hnil
          rw [hnil d (List.mem_cons_self _ _)] at hd
          cases hd
        · exact cleanText_idem _
    · cases hp

theorem fallbackVerses_text {body : DomNode} {x : Verse}
    (hx : x ∈ fallbackVerses body) : x.t ≠ [] ∧ cleanText x.t = x.t := by
  rw [fallbackVerses] at hx
  obtain ⟨p, hp1, hp2⟩ := List.mem_filterMap.mp hx
  have hclean := cleanText_isCleanStr (textContent body)
  have hpieces := splitVerseGo_pieces (cleanText (textContent body)) []
    (by simpa using hclean.1) (by simpa using hclean.2.2.2)
  rw [splitVerse] at hp1
  exact parsePiece_text hp2 (hpieces p hp1)

/-- **C7**.  Every verse returned by `extractVersesFromHtml`, under either
strategy, has non-empty, whitespace-normalized text (`cleanText` is the
identity on it); markers that accumulate no non-empty text produce no
verse. -/
theorem claim_c7_verse_text_clean (body : DomNode) (x : Verse)
    (hx : x ∈ extractVersesFromHtml body) : x.t ≠ [] ∧ cleanText x.t = x.t := by
  rw [extractVersesFromHtml, sortVerses] at hx
  have hperm := List.perm_insertionSort (fun a b : Verse => a.v ≤ b.v)
    (dedupVerses (if usesFallback body then fallbackVerses body
      else primaryVerses (preorder body)))
  have hx2 := hperm.mem_iff.mp hx
  rw [dedupVerses] at hx2
  have hx3 := mem_dedupGo _ _ _ hx2
  by_cases hf : usesFallback body
  · rw [if_pos hf] at hx3
    exact fallbackVerses_text hx3
  · rw [if_neg hf] at hx3
    exact primaryVerses_text _ _ hx3

/-- **C7 witness**: the single verse extracted from
`<sup>5</sup> alpha  beta` has the non-empty cleaned text
`"5 alpha beta"` (the marker's own digit text is part of the walk). -/
theorem claim_c7_verse_text_clean_witness :
    ((⟨5, "5 alpha beta".toList⟩ : Verse) ∈ extractVersesFromHtml
        (DomNode.element "body".toList
          [DomNode.element "sup".toList [DomNode.text "5".toList],
           DomNode.text " alpha  beta".toList])) ∧
      "5 alpha beta".toList ≠ ([] : List Char) ∧
        cleanText "5 alpha beta".toList = "5 alpha beta".toList := by
  have hmem : (⟨5, "5 alpha beta".toList⟩ : Verse) ∈ extractVersesFromHtml
      (DomNode.element "body".toList
        [DomNode.element "sup".toList [DomNode.text "5".toList],
         DomNode.text " alpha  beta".toList]) := by decide
  exact ⟨hmem, claim_c7_verse_text_clean _ _ hmem⟩

/-- **C5 witness**: the invariants evaluated on the concrete input
`"αβ γ"` and its first token `⟨word, "αβ"⟩`. -/
theorem claim_c5_tokenize_invariants_witness :
    List.Chain' (fun a b => a.kind ≠ b.kind) (tokenizePreserve "αβ γ".toList) ∧
      ((⟨TokenKind.word, "αβ".toList⟩ : Token).value ≠ [] ∧
        ((⟨TokenKind.word, "αβ".toList⟩ : Token).kind = TokenKind.word ↔
          ∀ c ∈ (⟨TokenKind.word, "αβ".toList⟩ : Token).value, isWordChar c = true)) := by
  have h := claim_c5_tokenize_invariants "αβ γ".toList
  refine ⟨h.1, h.2 _ ?_⟩
  simp [tokenizePreserve, isWordChar, isLetterU, letterRanges, isMark]
